import Mathlib

/-!
# Verification of the Payroll System core (PayrollSystem.cpp)

A shallow embedding of the payroll program's core data model and operations.
C++ `double` values are modelled as exact rationals (`ℚ`); `std::map` and
`std::set` are modelled as association lists / lists whose iteration order is
not relied upon by any theorem below; file reads are modelled by passing the
parsed file content as an `Option` (with `none` standing for an unreadable
source).
-/

namespace Payroll

/-- Characters stripped by `trim` in the source (`" \t\r\n"`). -/
def isTrimChar (c : Char) : Bool :=
  c = ' ' || c = '\t' || c = '\r' || c = '\n'

/-- `trim`: removes whitespace from beginning and end of a string
(`trim` in PayrollSystem.cpp). -/
def trim (s : String) : String :=
  String.mk (((s.toList.dropWhile isTrimChar).reverse.dropWhile isTrimChar).reverse)

/-- `toUpper`: converts a string to uppercase (`toUpper` in PayrollSystem.cpp). -/
def toUpperStr (s : String) : String :=
  String.mk (s.toList.map Char.toUpper)

/-- Whether `pat` occurs at the head of `l` (used to model `string::find`). -/
def startsWithPat : List Char → List Char → Bool
  | [], _ => true
  | _ :: _, [] => false
  | a :: ps, b :: ls => a = b && startsWithPat ps ls

/-- Index of the first occurrence of `pat` in `l`, if any
(models `std::string::find`). -/
def findSubIdx (pat : List Char) : List Char → Option Nat
  | [] => if pat.isEmpty then some 0 else none
  | c :: ls =>
    if startsWithPat pat (c :: ls) then some 0
    else (findSubIdx pat ls).map (· + 1)

/-- Month-key extraction from a pay-file name:
`toUpper(filename.substr(0, filename.find(".txt")))`
(`loadPayFile` lines 256-257). When `".txt"` does not occur, `substr`
takes the whole string (`npos` case). -/
def monthOfFilename (filename : String) : String :=
  match findSubIdx ".txt".toList filename.toList with
  | some i => toUpperStr (String.mk (filename.toList.take i))
  | none => toUpperStr filename

/-- First-match association-list lookup (models `std::map::find`). -/
def assocLookup {α : Type} (l : List (String × α)) (k : String) : Option α :=
  match l with
  | [] => none
  | p :: rest => if p.1 = k then some p.2 else assocLookup rest k

/-- Whether the key `k` is bound in `l` (models `std::map::count`). -/
def assocHas {α : Type} (l : List (String × α)) (k : String) : Bool :=
  l.any (fun p => p.1 = k)

/-- Insert-or-assign (models `std::map::operator[] = v`): replaces the value
at `k` in place if bound, otherwise adds the binding. -/
def mapInsert {α : Type} (l : List (String × α)) (k : String) (v : α) :
    List (String × α) :=
  if assocHas l k then l.map (fun p => if p.1 = k then (k, v) else p)
  else l ++ [(k, v)]

/-- Update the value bound at `k` in place, if any. -/
def mapUpdate {α : Type} (l : List (String × α)) (k : String) (f : α → α) :
    List (String × α) :=
  l.map (fun p => if p.1 = k then (p.1, f p.2) else p)

/-- Remove the binding for `k` (models `std::map::erase(key)`). -/
def mapErase {α : Type} (l : List (String × α)) (k : String) :
    List (String × α) :=
  l.filter (fun p => p.1 ≠ k)

/-- Insert into a set modelled as a duplicate-free list
(models `std::set::insert`). -/
def setInsert (l : List String) (k : String) : List String :=
  if l.contains k then l else l ++ [k]

/-- `TAX_FREE_ALLOWANCE = 12570.0` (UK tax-free allowance). -/
def TAX_FREE_ALLOWANCE : ℚ := 12570

/-- `TAX_RATE = 0.20` (20% tax rate). -/
def TAX_RATE_CONST : ℚ := 20 / 100

/-- `MONTHS_IN_YEAR = 12`. -/
def MONTHS_IN_YEAR : ℚ := 12

/-- The `Employee` class: id, display name, hourly rate and the
month → hours-worked map (`map<string, double> hoursWorked`). -/
structure Employee where
  id : String
  name : String
  hourlyRate : ℚ
  hoursWorked : List (String × ℚ)
deriving DecidableEq, Repr

namespace Employee

/-- `Employee::getGrossPay`: hourly rate × hours for the month, or 0 when the
month has no recorded hours. -/
def getGrossPay (e : Employee) (month : String) : ℚ :=
  match assocLookup e.hoursWorked month with
  | none => 0
  | some h => e.hourlyRate * h

/-- `Employee::getTax`: annualize the monthly gross, subtract the allowance,
clamp at 0, apply the flat rate, return the monthly portion. -/
def getTax (e : Employee) (month : String) : ℚ :=
  let gross := e.getGrossPay month
  let annual := gross * MONTHS_IN_YEAR
  let taxable0 := annual - TAX_FREE_ALLOWANCE
  let taxable := if taxable0 < 0 then 0 else taxable0
  let annualTax := taxable * TAX_RATE_CONST
  annualTax / MONTHS_IN_YEAR

/-- `Employee::getNetPay`: gross pay minus tax. -/
def getNetPay (e : Employee) (month : String) : ℚ :=
  e.getGrossPay month - e.getTax month

/-- `Employee::getTotalGross`: sum of per-month gross over the hours map. -/
def getTotalGross (e : Employee) : ℚ :=
  (e.hoursWorked.map (fun rec => e.getGrossPay rec.1)).sum

/-- `Employee::getTotalTax`: sum of per-month tax over the hours map. -/
def getTotalTax (e : Employee) : ℚ :=
  (e.hoursWorked.map (fun rec => e.getTax rec.1)).sum

/-- `Employee::getTotalNet`: sum of per-month net over the hours map. -/
def getTotalNet (e : Employee) : ℚ :=
  (e.hoursWorked.map (fun rec => e.getNetPay rec.1)).sum

end Employee

/-- Error-log message for an unknown employee identifier
(`id + " is not a valid employee ID number."`). -/
def unknownIdMsg (id : String) : String :=
  id ++ " is not a valid employee ID number."

/-- Error-log message for an unreadable pay file
(`"Pay file " + filename + " could not be found."`). -/
def unreadableMsg (filename : String) : String :=
  "Pay file " ++ filename ++ " could not be found."

/-- The `PayrollSystem` class state: the employee database keyed by normalized
id, the set of processed pay files, the ordered list of processed months and
the pending error list. -/
structure PayrollSystem where
  employees : List (String × Employee)
  loadedPayFiles : List String
  processedMonths : List String
  errors : List (String × String)
deriving DecidableEq, Repr

/-- The freshly constructed `PayrollSystem` (all containers empty). -/
def initState : PayrollSystem := ⟨[], [], [], []⟩

/-- `PayrollSystem::loadEmployees`, over the parsed records of a readable
registry source. Each record `(id, name, rate)` is normalized
(`toUpper(trim(id))`, `trim(name)`) and stored with
`employees[id] = Employee(id, name, rate)` (last record wins). Malformed
lines are already absent from `records` (they are skipped by the stream
extraction at the parse boundary). -/
def loadEmployees (s : PayrollSystem) (records : List (String × String × ℚ)) :
    PayrollSystem :=
  { s with
    employees := records.foldl
      (fun es r =>
        let nid := toUpperStr (trim r.1)
        mapInsert es nid ⟨nid, trim r.2.1, r.2.2, []⟩)
      s.employees }

/-- The loop of `removePayRecordsForMonth` over the employee map: erase the
hours entry for `month` from every employee. -/
def eraseMonthAll (es : List (String × Employee)) (month : String) :
    List (String × Employee) :=
  es.map (fun p => (p.1, { p.2 with hoursWorked := mapErase p.2.hoursWorked month }))

/-- `PayrollSystem::removePayRecordsForMonth`: erase the hours entry for
`month` from every employee, and erase the first occurrence of `month` from
`processedMonths` if present. (`loadedPayFiles` is not touched here.) -/
def removePayRecordsForMonth (s : PayrollSystem) (month : String) :
    PayrollSystem :=
  { s with
    employees := eraseMonthAll s.employees month,
    processedMonths := s.processedMonths.erase month }

/-- The per-line loop of `PayrollSystem::loadPayFile` (lines 282-292), over the
parsed `(identifier, hours)` records of the pay file: a record with a known
normalized identifier sets `hoursWorked[upMonth] = hours` on that employee; an
unknown identifier appends one error. Returns the updated employee map and the
errors collected by this loop. -/
def processRecords (es : List (String × Employee)) (upMonth : String)
    (filename : String) (records : List (String × ℚ)) :
    List (String × Employee) × List (String × String) :=
  records.foldl
    (fun acc r =>
      let nid := toUpperStr (trim r.1)
      if assocHas acc.1 nid then
        (mapUpdate acc.1 nid
          (fun e => { e with hoursWorked := mapInsert e.hoursWorked upMonth r.2 }),
         acc.2)
      else
        (acc.1, acc.2 ++ [(filename, unknownIdMsg nid)]))
    (es, [])

/-- `PayrollSystem::logErrors`: the pending errors are flushed to the external
error log; the in-memory effect is clearing the list. -/
def logErrors (s : PayrollSystem) : PayrollSystem :=
  { s with errors := [] }

/-- The part of `loadPayFile` after the duplicate check: attempt to read the
file (`content = none` models an unreadable source), process the records, mark
the month processed, and flush errors. Returns the success flag, the errors
pushed during this call (what `logErrors` flushes to the sink), and the new
state. -/
def loadPayBody (s : PayrollSystem) (filename upMonth : String)
    (content : Option (List (String × ℚ))) :
    Bool × List (String × String) × PayrollSystem :=
  match content with
  | none =>
    let newErrs := [(filename, unreadableMsg filename)]
    (false, newErrs, logErrors { s with errors := s.errors ++ newErrs })
  | some records =>
    let res := processRecords s.employees upMonth filename records
    (true, res.2,
     logErrors
       { s with
         employees := res.1,
         errors := s.errors ++ res.2,
         loadedPayFiles := setInsert s.loadedPayFiles upMonth,
         processedMonths := s.processedMonths ++ [upMonth] })

/-- `PayrollSystem::loadPayFile`: derive the month-key from the file name; if
that month is already processed and `replace` is false, ask the caller
(`confirmYes` models the interactive y/n answer): on yes, remove the month's
records and unmark the file, then proceed; on no, return `false` with no state
change. Otherwise proceed directly with `loadPayBody`. -/
def loadPayFile (s : PayrollSystem) (filename : String)
    (content : Option (List (String × ℚ))) (replace : Bool)
    (confirmYes : Bool) : Bool × List (String × String) × PayrollSystem :=
  let upMonth := monthOfFilename filename
  if s.loadedPayFiles.contains upMonth && !replace then
    if confirmYes then
      let s1 := removePayRecordsForMonth s upMonth
      let s2 := { s1 with loadedPayFiles := s1.loadedPayFiles.filter (· ≠ upMonth) }
      loadPayBody s2 filename upMonth content
    else
      (false, [], s)
  else
    loadPayBody s filename upMonth content

/-- The employee-map component of `processRecords`, as a structural recursion
(proved equal to the fold's first component in `processRecords_eq`). -/
def applyRecords (es : List (String × Employee)) (upMonth : String) :
    List (String × ℚ) → List (String × Employee)
  | [] => es
  | r :: rest =>
    let nid := toUpperStr (trim r.1)
    if assocHas es nid then
      applyRecords
        (mapUpdate es nid
          (fun e => { e with hoursWorked := mapInsert e.hoursWorked upMonth r.2 }))
        upMonth rest
    else
      applyRecords es upMonth rest

/-- The error component of `processRecords`, as a structural recursion
(proved equal to the fold's second component in `processRecords_eq`). -/
def collectErrs (es : List (String × Employee)) (upMonth filename : String) :
    List (String × ℚ) → List (String × String)
  | [] => []
  | r :: rest =>
    let nid := toUpperStr (trim r.1)
    if assocHas es nid then
      collectErrs
        (mapUpdate es nid
          (fun e => { e with hoursWorked := mapInsert e.hoursWorked upMonth r.2 }))
        upMonth filename rest
    else
      (filename, unknownIdMsg nid) :: collectErrs es upMonth filename rest

/-- One core operation on the ledger, for reachability statements: a registry
load (over parsed records), a pay-file ingestion, or a month removal. -/
inductive Op where
  | loadEmp (records : List (String × String × ℚ))
  | ingest (filename : String) (content : Option (List (String × ℚ)))
      (replace : Bool) (confirmYes : Bool)
  | removeMonth (month : String)

/-- Apply one operation to the ledger state. -/
def applyOp (s : PayrollSystem) : Op → PayrollSystem
  | .loadEmp rs => loadEmployees s rs
  | .ingest f c r y => (loadPayFile s f c r y).2.2
  | .removeMonth m => removePayRecordsForMonth s m

/-- Run a sequence of operations from a state. -/
def runOps (s : PayrollSystem) (ops : List Op) : PayrollSystem :=
  ops.foldl applyOp s

/-- The ledger bookkeeping invariant: every month-key recorded in any
employee's hours map is listed in `processedMonths`; `processedMonths` has no
duplicate keys; every processed month is also marked in `loadedPayFiles`. -/
def LedgerInv (s : PayrollSystem) : Prop :=
  (∀ p ∈ s.employees, ∀ q ∈ p.2.hoursWorked, q.1 ∈ s.processedMonths) ∧
  s.processedMonths.Nodup ∧
  (∀ m ∈ s.processedMonths, m ∈ s.loadedPayFiles)

/-- Whether an operation avoids the `replace = true` ingestion flag (the
program's own menu only ever calls `loadPayFile` with the default
`replace = false`). -/
def noReplaceFlag : Op → Bool
  | .ingest _ _ r _ => !r
  | _ => true

/-- The employees who worked in `month`, in registry iteration order — the
list `emps` built by `sortEmployeesMenu` (lines 600-603). -/
def monthEmployees (s : PayrollSystem) (month : String) : List Employee :=
  (s.employees.filter (fun p => assocHas p.2.hoursWorked month)).map (·.2)

/-- The sort key of the three criteria of `sortEmployeesMenu`:
1 = hourly rate, 2 = hours worked in the month (`hoursWorked.at(month)`,
defined on every listed employee), 3 = net pay for the month. -/
def sortKey (crit : Nat) (month : String) (e : Employee) : ℚ :=
  if crit = 1 then e.hourlyRate
  else if crit = 2 then (assocLookup e.hoursWorked month).getD 0
  else e.getNetPay month

/-- Postcondition of `std::sort(emps, comp)` with the strict comparator
`comp a b ↔ sortKey b < sortKey a` (descending): the output is some
permutation of `monthEmployees` that is sorted for `comp`, i.e. pairwise
nonincreasing in the key. `std::sort` guarantees nothing more (it is an
unstable sort), so the listing is modelled as this relation on outputs. -/
def SortOutcome (s : PayrollSystem) (month : String) (crit : Nat)
    (out : List Employee) : Prop :=
  out.Perm (monthEmployees s month) ∧
  out.Pairwise (fun a b => ¬ sortKey crit month a < sortKey crit month b)

instance (s : PayrollSystem) (month : String) (crit : Nat)
    (out : List Employee) : Decidable (SortOutcome s month crit out) := by
  unfold SortOutcome
  infer_instance

/-! ## Concrete fixtures used by witnesses and counterexamples -/

/-- The worked example employee: `E1 "Alice" rate=15.00`, 160 hours in JAN25. -/
def aliceE : Employee := ⟨"E1", "Alice", 15, [("JAN25", 160)]⟩

/-- An employee with no recorded hours at all. -/
def carolE : Employee := ⟨"E3", "Carol", 10, []⟩

/-- A two-employee registry record list. -/
def regsAB : List (String × String × ℚ) := [("E1", "Alice", 15), ("E2", "Bob", 10)]

/-- The ledger after loading the two-employee registry. -/
def sAB0 : PayrollSystem := loadEmployees initState regsAB

/-- The ledger after additionally ingesting `jan25.txt` with hours for both
employees. -/
def sAB1 : PayrollSystem :=
  (loadPayFile sAB0 "jan25.txt" (some [("E1", 160), ("E2", 100)]) false false).2.2

/-- A second pay file for the same month, covering only `E1`. -/
def jan25v2 : List (String × ℚ) := [("E1", 150)]

/-- A ledger whose two employees share the same hourly rate (a sort-key tie
for the hourly-rate criterion). -/
def sTie : PayrollSystem :=
  (loadPayFile (loadEmployees initState [("E1", "Alice", 10), ("E2", "Bob", 10)])
    "jan25.txt" (some [("E1", 160), ("E2", 100)]) false false).2.2

/-- A listing of `sTie`'s JAN25 employees with the tied pair in descending
identifier order. -/
def tieDescOut : List Employee :=
  [⟨"E2", "Bob", 10, [("JAN25", 100)]⟩, ⟨"E1", "Alice", 10, [("JAN25", 160)]⟩]

/-- The same listing with the tied pair in ascending identifier order. -/
def tieAscOut : List Employee :=
  [⟨"E1", "Alice", 10, [("JAN25", 160)]⟩, ⟨"E2", "Bob", 10, [("JAN25", 100)]⟩]

/-- A concrete operation sequence that never passes `replace = true`. -/
def opsNoReplace : List Op :=
  [Op.loadEmp regsAB,
   Op.ingest "jan25.txt" (some [("E1", 160), ("E2", 100)]) false false,
   Op.ingest "jan25.txt" (some [("E1", 150)]) false true,
   Op.removeMonth "JAN25",
   Op.ingest "feb25.txt" (some [("ZZZ", 10), ("E2", 80)]) false false]

end Payroll

namespace Payroll

/-! ## Theorems -/

/-! ### Association-list lemmas -/

/-- Unfolding equation for `assocHas` on a cons cell. -/
theorem assocHas_cons {α : Type} (p : String × α) (t : List (String × α))
    (k : String) : assocHas (p :: t) k = (decide (p.1 = k) || assocHas t k) := rfl

/-- Unfolding equation for `assocLookup` on a cons cell. -/
theorem assocLookup_cons {α : Type} (p : String × α) (t : List (String × α))
    (k : String) :
    assocLookup (p :: t) k = if p.1 = k then some p.2 else assocLookup t k := rfl

/-- Unfolding equation for `mapErase` on a cons cell. -/
theorem mapErase_cons {α : Type} (p : String × α) (t : List (String × α))
    (k : String) :
    mapErase (p :: t) k = if p.1 = k then mapErase t k else p :: mapErase t k := by
  unfold mapErase
  by_cases hp : p.1 = k <;> simp [List.filter_cons, hp]

/-- `assocHas` holds exactly when `assocLookup` succeeds. -/
theorem assocHas_iff_lookup {α : Type} (l : List (String × α)) (k : String) :
    assocHas l k = true ↔ ∃ v, assocLookup l k = some v := by
  induction l with
  | nil => simp [assocHas, assocLookup]
  | cons p t ih =>
    by_cases hp : p.1 = k
    · simp [assocHas_cons, assocLookup_cons, hp]
    · simp [assocHas_cons, assocLookup_cons, hp, ih]

/-- Any element of `mapInsert l k v` is an element of `l` or the new pair. -/
theorem mem_mapInsert {α : Type} (l : List (String × α)) (k : String) (v : α) :
    ∀ p ∈ mapInsert l k v, p ∈ l ∨ p = (k, v) := by
  intro p hp
  unfold mapInsert at hp
  by_cases h : assocHas l k
  · rw [if_pos h] at hp
    rcases List.mem_map.mp hp with ⟨q, hq, hqe⟩
    by_cases hk : q.1 = k
    · right; rw [← hqe]; simp [hk]
    · left; rw [← hqe]; simpa [hk] using hq
  · rw [if_neg h] at hp
    rcases List.mem_append.mp hp with h1 | h1
    · left; exact h1
    · right; simpa using h1

/-- Looking up `k` after replacing every `k`-entry by `(k, v)` yields `v`,
provided some `k`-entry exists. -/
theorem assocLookup_replace_self {α : Type} (l : List (String × α)) (k : String)
    (v : α) (h : assocHas l k = true) :
    assocLookup (l.map (fun p => if p.1 = k then (k, v) else p)) k = some v := by
  induction l with
  | nil => simp [assocHas] at h
  | cons p t ih =>
    by_cases hp : p.1 = k
    · simp [hp, assocLookup_cons]
    · rw [assocHas_cons] at h
      have ht : assocHas t k = true := by simpa [hp] using h
      simpa [hp, assocLookup_cons] using ih ht

/-- Looking up `k` in `l ++ [(k, v)]` yields `v` when `l` has no `k`-entry. -/
theorem assocLookup_append_single {α : Type} (l : List (String × α)) (k : String)
    (v : α) (h : assocHas l k = false) :
    assocLookup (l ++ [(k, v)]) k = some v := by
  induction l with
  | nil => simp [assocLookup_cons, assocLookup]
  | cons p t ih =>
    rw [assocHas_cons] at h
    simp only [Bool.or_eq_false_iff, decide_eq_false_iff_not] at h
    simpa [assocLookup_cons, h.1] using ih h.2

/-- Looking up the freshly inserted key returns the new value (overwrite). -/
theorem assocLookup_mapInsert_self {α : Type} (l : List (String × α)) (k : String)
    (v : α) : assocLookup (mapInsert l k v) k = some v := by
  unfold mapInsert
  by_cases h : assocHas l k
  · rw [if_pos h]
    exact assocLookup_replace_self l k v h
  · rw [if_neg h]
    exact assocLookup_append_single l k v (by simpa using h)

/-- Erasing a key makes its lookup fail. -/
theorem assocLookup_mapErase_self {α : Type} (l : List (String × α)) (k : String) :
    assocLookup (mapErase l k) k = none := by
  induction l with
  | nil => rfl
  | cons p t ih =>
    rw [mapErase_cons]
    by_cases hp : p.1 = k
    · rw [if_pos hp]; exact ih
    · rw [if_neg hp, assocLookup_cons, if_neg hp]; exact ih

/-- Erasing one key leaves lookups of other keys unchanged. -/
theorem assocLookup_mapErase_ne {α : Type} (l : List (String × α)) (k k' : String)
    (h : k' ≠ k) : assocLookup (mapErase l k) k' = assocLookup l k' := by
  induction l with
  | nil => rfl
  | cons p t ih =>
    rw [mapErase_cons]
    by_cases hp : p.1 = k
    · have hpk' : ¬ p.1 = k' := by rw [hp]; exact fun he => h he.symm
      rw [if_pos hp, assocLookup_cons, if_neg hpk']
      exact ih
    · rw [if_neg hp, assocLookup_cons, assocLookup_cons]
      by_cases hp' : p.1 = k'
      · rw [if_pos hp', if_pos hp']
      · rw [if_neg hp', if_neg hp']
        exact ih

/-- Erasing an unbound key is a no-op. -/
theorem mapErase_eq_self {α : Type} (l : List (String × α)) (k : String)
    (h : assocLookup l k = none) : mapErase l k = l := by
  induction l with
  | nil => rfl
  | cons p t ih =>
    rw [assocLookup_cons] at h
    by_cases hp : p.1 = k
    · rw [if_pos hp] at h
      cases h
    · rw [if_neg hp] at h
      rw [mapErase_cons, if_neg hp, ih h]

/-- Membership in `mapErase`. -/
theorem mem_mapErase {α : Type} (l : List (String × α)) (k : String)
    (q : String × α) : q ∈ mapErase l k ↔ q ∈ l ∧ q.1 ≠ k := by
  simp [mapErase, List.mem_filter]

/-- `mapUpdate` preserves the key list. -/
theorem mapUpdate_keys {α : Type} (l : List (String × α)) (k : String)
    (f : α → α) : (mapUpdate l k f).map (·.1) = l.map (·.1) := by
  unfold mapUpdate
  rw [List.map_map]
  congr 1
  funext p
  by_cases hp : p.1 = k <;> simp [hp]

/-- `assocHas` holds exactly when the key occurs in the key list. -/
theorem assocHas_iff_mem_keys {α : Type} (l : List (String × α)) (k : String) :
    assocHas l k = true ↔ k ∈ l.map (·.1) := by
  induction l with
  | nil => simp [assocHas]
  | cons p t ih =>
    by_cases hp : p.1 = k
    · simp [assocHas_cons, hp]
    · rw [assocHas_cons]
      simp only [List.map_cons, List.mem_cons]
      constructor
      · intro hor
        right
        exact ih.mp (by simpa [hp] using hor)
      · intro hor
        rcases hor with he | hm
        · exact absurd he.symm hp
        · have hmem := ih.mpr hm
          simp [hp, hmem]

/-- `assocHas` only depends on the key list. -/
theorem assocHas_of_keys_eq {α β : Type} (l : List (String × α))
    (l' : List (String × β)) (k : String)
    (h : l.map (·.1) = l'.map (·.1)) : assocHas l k = assocHas l' k := by
  have h1 := assocHas_iff_mem_keys l k
  have h2 := assocHas_iff_mem_keys l' k
  rw [h] at h1
  cases hb : assocHas l' k
  · have hk : k ∉ l'.map (·.1) := fun hm => by
      have hbt := h2.mpr hm
      rw [hb] at hbt
      cases hbt
    have hnt : ¬ assocHas l k = true := fun ht => hk (h1.mp ht)
    simpa using hnt
  · exact h1.mpr (h2.mp hb)

/-! ### Characterization of the ingestion loop and removal loop -/

/-- The fold of `processRecords` splits into its employee-map component
(`applyRecords`) and its error component (`collectErrs`). -/
theorem processRecords_eq (up f : String) (rs : List (String × ℚ)) :
    ∀ (es : List (String × Employee)),
      processRecords es up f rs = (applyRecords es up rs, collectErrs es up f rs) := by
  suffices haux : ∀ (es : List (String × Employee)) (errs : List (String × String)),
      rs.foldl
        (fun acc r =>
          let nid := toUpperStr (trim r.1)
          if assocHas acc.1 nid then
            (mapUpdate acc.1 nid
              (fun e => { e with hoursWorked := mapInsert e.hoursWorked up r.2 }),
             acc.2)
          else (acc.1, acc.2 ++ [(f, unknownIdMsg nid)]))
        (es, errs)
      = (applyRecords es up rs, errs ++ collectErrs es up f rs) by
    intro es
    unfold processRecords
    simpa using haux es []
  induction rs with
  | nil =>
    intro es errs
    simp [applyRecords, collectErrs]
  | cons r rest ih =>
    intro es errs
    by_cases h : assocHas es (toUpperStr (trim r.1))
    · simp only [List.foldl_cons, h, if_true, applyRecords, collectErrs]
      exact ih _ errs
    · simp only [List.foldl_cons, applyRecords, collectErrs]
      rw [if_neg h, if_neg h, if_neg h]
      rw [ih es (errs ++ [(f, unknownIdMsg (toUpperStr (trim r.1)))])]
      simp

/-- `applyRecords` preserves the key list of the employee map. -/
theorem applyRecords_keys (up : String) (rs : List (String × ℚ)) :
    ∀ es : List (String × Employee),
      (applyRecords es up rs).map (·.1) = es.map (·.1) := by
  induction rs with
  | nil =>
    intro es
    rfl
  | cons r rest ih =>
    intro es
    unfold applyRecords
    by_cases h : assocHas es (toUpperStr (trim r.1))
    · rw [if_pos h, ih, mapUpdate_keys]
    · rw [if_neg h, ih]

/-- The errors collected by the ingestion loop: exactly one per record whose
normalized identifier is unknown, in record order. -/
theorem collectErrs_eq_filterMap (up f : String) (rs : List (String × ℚ)) :
    ∀ es : List (String × Employee),
      collectErrs es up f rs
        = rs.filterMap (fun r =>
            let nid := toUpperStr (trim r.1)
            if assocHas es nid then none else some (f, unknownIdMsg nid)) := by
  induction rs with
  | nil =>
    intro es
    rfl
  | cons r rest ih =>
    intro es
    unfold collectErrs
    by_cases h : assocHas es (toUpperStr (trim r.1))
    · rw [if_pos h, ih]
      simp only [List.filterMap_cons]
      rw [if_pos h]
      congr 1
      funext r'
      rw [assocHas_of_keys_eq _ es _
        (mapUpdate_keys es (toUpperStr (trim r.1))
          (fun e => { e with hoursWorked := mapInsert e.hoursWorked up r.2 }))]
    · rw [if_neg h, ih]
      simp only [List.filterMap_cons]
      rw [if_neg h]

/-- Replacing every `k`-entry and then dropping key `k` is the same as just
dropping key `k`. -/
theorem filter_replace_eq {α : Type} (l : List (String × α)) (k : String) (v : α) :
    mapErase (l.map (fun p => if p.1 = k then (k, v) else p)) k = mapErase l k := by
  induction l with
  | nil => rfl
  | cons p t ih =>
    by_cases hp : p.1 = k
    · rw [List.map_cons, if_pos hp, mapErase_cons, mapErase_cons, if_pos hp,
        if_pos rfl]
      exact ih
    · rw [List.map_cons, if_neg hp, mapErase_cons, mapErase_cons, if_neg hp,
        if_neg hp, ih]

/-- Erasing the just-inserted key gives the same result as erasing it from the
original list. -/
theorem mapErase_mapInsert_self {α : Type} (l : List (String × α)) (k : String)
    (v : α) : mapErase (mapInsert l k v) k = mapErase l k := by
  unfold mapInsert
  by_cases h : assocHas l k
  · rw [if_pos h]
    exact filter_replace_eq l k v
  · rw [if_neg h]
    unfold mapErase
    rw [List.filter_append]
    simp [List.filter]

/-- Removing month `up` after updating one employee's `up`-hours is the same
as removing month `up` outright. -/
theorem eraseMonthAll_mapUpdate_insert (es : List (String × Employee))
    (nid up : String) (h : ℚ) :
    eraseMonthAll
      (mapUpdate es nid
        (fun e => { e with hoursWorked := mapInsert e.hoursWorked up h })) up
      = eraseMonthAll es up := by
  unfold eraseMonthAll mapUpdate
  rw [List.map_map]
  congr 1
  funext p
  by_cases hp : p.1 = nid
  · simp [Function.comp, hp, mapErase_mapInsert_self]
  · simp [Function.comp, hp]

/-- Removing month `up` after the ingestion loop for month `up` is the same as
removing month `up` before it. -/
theorem eraseMonthAll_applyRecords (up : String) (rs : List (String × ℚ)) :
    ∀ es : List (String × Employee),
      eraseMonthAll (applyRecords es up rs) up = eraseMonthAll es up := by
  induction rs with
  | nil =>
    intro es
    rfl
  | cons r rest ih =>
    intro es
    unfold applyRecords
    by_cases hr : assocHas es (toUpperStr (trim r.1))
    · rw [if_pos hr, ih, eraseMonthAll_mapUpdate_insert]
    · rw [if_neg hr, ih]

/-- Removing a month recorded for no employee is a no-op on the employee map. -/
theorem eraseMonthAll_eq_self (es : List (String × Employee)) (up : String)
    (h : ∀ p ∈ es, assocLookup p.2.hoursWorked up = none) :
    eraseMonthAll es up = es := by
  unfold eraseMonthAll
  induction es with
  | nil => rfl
  | cons p t ih =>
    rw [List.map_cons]
    have hp := h p (by simp)
    rw [mapErase_eq_self _ _ hp]
    rw [ih (fun q hq => h q (by simp [hq]))]

/-- Every employee loaded from a registry into the fresh ledger starts with an
empty hours map. -/
theorem loadEmployees_init_hours (regs : List (String × String × ℚ)) :
    ∀ p ∈ (loadEmployees initState regs).employees, p.2.hoursWorked = [] := by
  suffices haux : ∀ (es : List (String × Employee)),
      (∀ p ∈ es, p.2.hoursWorked = []) →
      ∀ p ∈ regs.foldl
        (fun es r =>
          let nid := toUpperStr (trim r.1)
          mapInsert es nid ⟨nid, trim r.2.1, r.2.2, []⟩)
        es, p.2.hoursWorked = [] by
    intro p hp
    exact haux [] (by simp) p hp
  induction regs with
  | nil =>
    intro es hes p hp
    exact hes p hp
  | cons r rest ih =>
    intro es hes p hp
    refine ih _ ?_ p (by simpa using hp)
    intro q hq
    rcases mem_mapInsert _ _ _ q hq with hq1 | hq1
    · exact hes q hq1
    · rw [hq1]

/-- The inserted key is in the set after `setInsert`. -/
theorem mem_setInsert_self (l : List String) (k : String) : k ∈ setInsert l k := by
  unfold setInsert
  by_cases h : l.contains k
  · rw [if_pos h]
    exact List.mem_of_elem_eq_true h
  · rw [if_neg h]
    simp

/-- `setInsert` keeps all previous members. -/
theorem mem_setInsert_of_mem (l : List String) (k a : String) (h : a ∈ l) :
    a ∈ setInsert l k := by
  unfold setInsert
  by_cases hc : l.contains k
  · rw [if_pos hc]
    exact h
  · rw [if_neg hc]
    simp [h]

/-! ### Branch lemmas for `loadPayFile` -/

/-- When the month has not been processed yet, `loadPayFile` goes straight to
the body. -/
theorem loadPayFile_not_processed (s : PayrollSystem) (f : String)
    (content : Option (List (String × ℚ))) (replace confirmYes : Bool)
    (h : s.loadedPayFiles.contains (monthOfFilename f) = false) :
    loadPayFile s f content replace confirmYes
      = loadPayBody s f (monthOfFilename f) content := by
  have h' : monthOfFilename f ∉ s.loadedPayFiles := by simpa using h
  simp [loadPayFile, h']

/-- When the month was already processed, `replace` is off and the caller
declines, `loadPayFile` returns `false` and leaves the state untouched. -/
theorem loadPayFile_declined (s : PayrollSystem) (f : String)
    (content : Option (List (String × ℚ)))
    (h : s.loadedPayFiles.contains (monthOfFilename f) = true) :
    loadPayFile s f content false false = (false, [], s) := by
  have h' : monthOfFilename f ∈ s.loadedPayFiles := by simpa using h
  simp [loadPayFile, h']

/-- When the month was already processed, `replace` is off and the caller
confirms, `loadPayFile` removes the month's records and unmarks the file
before running the body. -/
theorem loadPayFile_confirmed (s : PayrollSystem) (f : String)
    (content : Option (List (String × ℚ)))
    (h : s.loadedPayFiles.contains (monthOfFilename f) = true) :
    loadPayFile s f content false true
      = loadPayBody
          { removePayRecordsForMonth s (monthOfFilename f) with
            loadedPayFiles :=
              s.loadedPayFiles.filter (· ≠ monthOfFilename f) }
          f (monthOfFilename f) content := by
  have h' : monthOfFilename f ∈ s.loadedPayFiles := by simpa using h
  simp [loadPayFile, h', removePayRecordsForMonth]

/-- Sum of a mapped difference splits into the difference of mapped sums. -/
theorem sum_map_sub {α : Type} (l : List α) (f g : α → ℚ) :
    (l.map (fun x => f x - g x)).sum = (l.map f).sum - (l.map g).sum := by
  induction l with
  | nil => simp
  | cons a t ih => simp [ih]; ring

/--
C1: for every employee and month-key with recorded hours `h` and rate `r`,
`tax = max(0, r·h·12 − 12570) × 0.20 / 12`; in particular rate 15.00 with 160
hours gives gross 2400.00, monthly tax 270.50 and net 2129.50.
-/
theorem C1_tax_formula :
    (∀ (e : Employee) (month : String) (h : ℚ),
      assocLookup e.hoursWorked month = some h →
      e.getTax month = max 0 (e.hourlyRate * h * 12 - 12570) * (20 / 100) / 12) ∧
    (∀ (e : Employee) (month : String),
      assocLookup e.hoursWorked month = some 160 → e.hourlyRate = 15 →
      e.getGrossPay month = 2400 ∧ e.getTax month = 2705 / 10 ∧
      e.getNetPay month = 21295 / 10) := by
  have key : ∀ (e : Employee) (month : String) (h : ℚ),
      assocLookup e.hoursWorked month = some h →
      e.getTax month = max 0 (e.hourlyRate * h * 12 - 12570) * (20 / 100) / 12 := by
    intro e month h hrec
    unfold Employee.getTax Employee.getGrossPay
    rw [hrec]
    simp only [TAX_FREE_ALLOWANCE, TAX_RATE_CONST, MONTHS_IN_YEAR]
    rcases lt_or_le (e.hourlyRate * h * 12 - 12570) 0 with hlt | hle
    · rw [if_pos hlt, max_eq_left hlt.le]
    · rw [if_neg (not_lt.mpr hle), max_eq_right hle]
  refine ⟨key, ?_⟩
  intro e month hrec hrate
  have hg : e.getGrossPay month = 2400 := by
    unfold Employee.getGrossPay
    rw [hrec, hrate]
    norm_num
  have ht : e.getTax month = 2705 / 10 := by
    rw [key e month 160 hrec, hrate]
    norm_num
  refine ⟨hg, ht, ?_⟩
  unfold Employee.getNetPay
  rw [hg, ht]
  norm_num

/-- Witness for C1 at the worked example `aliceE`. -/
theorem C1_tax_formula_witness :
    aliceE.getTax "JAN25" = max 0 (aliceE.hourlyRate * 160 * 12 - 12570) * (20 / 100) / 12 ∧
    aliceE.getGrossPay "JAN25" = 2400 ∧ aliceE.getTax "JAN25" = 2705 / 10 ∧
    aliceE.getNetPay "JAN25" = 21295 / 10 :=
  ⟨C1_tax_formula.1 aliceE "JAN25" 160 (by rfl),
   C1_tax_formula.2 aliceE "JAN25" (by rfl) (by rfl)⟩

/--
C9: a month-key with no recorded hours entry yields gross, tax and net all 0,
with no error (absence is a valid zero case).
-/
theorem C9_absent_month_zero (e : Employee) (month : String)
    (habs : assocLookup e.hoursWorked month = none) :
    e.getGrossPay month = 0 ∧ e.getTax month = 0 ∧ e.getNetPay month = 0 := by
  have hg : e.getGrossPay month = 0 := by
    unfold Employee.getGrossPay
    rw [habs]
  have ht : e.getTax month = 0 := by
    unfold Employee.getTax
    rw [hg]
    simp only [TAX_FREE_ALLOWANCE, TAX_RATE_CONST, MONTHS_IN_YEAR]
    norm_num
  exact ⟨hg, ht, by unfold Employee.getNetPay; rw [hg, ht]; norm_num⟩

/-- Witness for C9 at `carolE` (no hours recorded). -/
theorem C9_absent_month_zero_witness :
    carolE.getGrossPay "FEB25" = 0 ∧ carolE.getTax "FEB25" = 0 ∧
    carolE.getNetPay "FEB25" = 0 :=
  C9_absent_month_zero carolE "FEB25" (by rfl)

/--
C10: for every employee, `getTotalNet() = getTotalGross() − getTotalTax()`:
each total sums the corresponding per-month figure over the same hour map, and
per month `net = gross − tax`.
-/
theorem C10_total_net_split (e : Employee) :
    e.getTotalNet = e.getTotalGross - e.getTotalTax := by
  unfold Employee.getTotalNet Employee.getTotalGross Employee.getTotalTax
  have : ∀ rec : String × ℚ, e.getNetPay rec.1 = e.getGrossPay rec.1 - e.getTax rec.1 := by
    intro rec
    rfl
  calc (e.hoursWorked.map (fun rec => e.getNetPay rec.1)).sum
      = (e.hoursWorked.map (fun rec => e.getGrossPay rec.1 - e.getTax rec.1)).sum := by
        simp only [this]
    _ = (e.hoursWorked.map (fun rec => e.getGrossPay rec.1)).sum -
        (e.hoursWorked.map (fun rec => e.getTax rec.1)).sum :=
        sum_map_sub e.hoursWorked _ _

/--
C4: when a month-key has already been processed and the replace decision is
answered "no", ingestion returns a skipped result (`false`, no errors) and
changes no state; hence re-ingesting an already-ingested month-key with the
decision declined leaves the ledger exactly as after the first ingestion.
-/
theorem C4_declined_skip :
    (∀ (s : PayrollSystem) (filename : String)
        (content : Option (List (String × ℚ))),
      s.loadedPayFiles.contains (monthOfFilename filename) = true →
      loadPayFile s filename content false false = (false, [], s)) ∧
    (∀ (regs : List (String × String × ℚ)) (filename : String)
        (rs1 : List (String × ℚ)) (content : Option (List (String × ℚ))),
      (loadPayFile
          ((loadPayFile (loadEmployees initState regs) filename (some rs1)
            false false).2.2)
          filename content false false).2.2
        = (loadPayFile (loadEmployees initState regs) filename (some rs1)
            false false).2.2) := by
  refine ⟨fun s filename content h => loadPayFile_declined s filename content h, ?_⟩
  intro regs filename rs1 content
  have h0 : (loadEmployees initState regs).loadedPayFiles.contains
      (monthOfFilename filename) = false := rfl
  rw [loadPayFile_not_processed _ _ _ _ _ h0]
  have h1 : (loadPayBody (loadEmployees initState regs) filename
      (monthOfFilename filename) (some rs1)).2.2.loadedPayFiles
      = [monthOfFilename filename] := rfl
  have h2 : (loadPayBody (loadEmployees initState regs) filename
      (monthOfFilename filename) (some rs1)).2.2.loadedPayFiles.contains
      (monthOfFilename filename) = true := by
    rw [h1]
    simp
  rw [loadPayFile_declined _ _ content h2]

/-- Witness for C4 at the concrete two-employee ledger. -/
theorem C4_declined_skip_witness :
    loadPayFile sAB1 "jan25.txt" (some jan25v2) false false = (false, [], sAB1) :=
  C4_declined_skip.1 sAB1 "jan25.txt" (some jan25v2) (by decide)

/--
C5: removing a month-key deletes that key's hours entry from every employee,
drops the key from the processed-months sequence (when it has no duplicates),
leaves every other month-key's data untouched, and removing a never-processed
month-key is a no-op on the whole ledger state.
-/
theorem C5_remove_month (s : PayrollSystem) (m : String) :
    (∀ p ∈ (removePayRecordsForMonth s m).employees,
      assocLookup p.2.hoursWorked m = none) ∧
    (s.processedMonths.Nodup → m ∉ (removePayRecordsForMonth s m).processedMonths) ∧
    (∀ m', m' ≠ m →
      ((removePayRecordsForMonth s m).employees.map
          (fun p => (p.1, assocLookup p.2.hoursWorked m'))
        = s.employees.map (fun p => (p.1, assocLookup p.2.hoursWorked m')) ∧
      (m' ∈ (removePayRecordsForMonth s m).processedMonths ↔
        m' ∈ s.processedMonths))) ∧
    ((∀ p ∈ s.employees, assocLookup p.2.hoursWorked m = none) →
      m ∉ s.processedMonths → removePayRecordsForMonth s m = s) := by
  refine ⟨?_, ?_, ?_, ?_⟩
  · intro p hp
    rcases List.mem_map.mp hp with ⟨q, _, hqe⟩
    rw [← hqe]
    exact assocLookup_mapErase_self q.2.hoursWorked m
  · intro hnd
    exact hnd.not_mem_erase
  · intro m' hm'
    constructor
    · show (eraseMonthAll s.employees m).map _ = _
      unfold eraseMonthAll
      rw [List.map_map]
      congr 1
      funext p
      simp only [Function.comp]
      rw [assocLookup_mapErase_ne _ _ _ hm']
    · exact List.mem_erase_of_ne hm'
  · intro hemp hproc
    show ({ s with
        employees := eraseMonthAll s.employees m,
        processedMonths := s.processedMonths.erase m } : PayrollSystem) = s
    rw [eraseMonthAll_eq_self s.employees m hemp, List.erase_of_not_mem hproc]

/-- Witness for C5: removing JAN25 from the concrete ledger clears it, and
removing a never-processed month is a no-op there. -/
theorem C5_remove_month_witness :
    ((∀ p ∈ (removePayRecordsForMonth sAB1 "JAN25").employees,
        assocLookup p.2.hoursWorked "JAN25" = none) ∧
      "JAN25" ∉ (removePayRecordsForMonth sAB1 "JAN25").processedMonths) ∧
    removePayRecordsForMonth sAB1 "MAR25" = sAB1 :=
  ⟨⟨(C5_remove_month sAB1 "JAN25").1,
    (C5_remove_month sAB1 "JAN25").2.1 (by decide)⟩,
   (C5_remove_month sAB1 "MAR25").2.2.2 (by decide) (by decide)⟩

/--
C6: during ingestion, each record is matched by normalized identifier against
the registry: the collected error list has exactly one entry (per unknown
record, in record order) and unknown records never create an employee entry
(the key list is unchanged); a known record sets `hours[month] = hours` by
overwrite, not accumulation.
-/
theorem C6_unknown_identifiers (es : List (String × Employee)) (up f : String)
    (rs : List (String × ℚ)) :
    ((processRecords es up f rs).1.map (·.1) = es.map (·.1)) ∧
    ((processRecords es up f rs).2
      = rs.filterMap (fun r =>
          let nid := toUpperStr (trim r.1)
          if assocHas es nid then none else some (f, unknownIdMsg nid))) ∧
    (∀ (hw : List (String × ℚ)) (hv : ℚ),
      assocLookup (mapInsert hw up hv) up = some hv) := by
  refine ⟨?_, ?_, ?_⟩
  · rw [processRecords_eq]
    exact applyRecords_keys up rs es
  · rw [processRecords_eq]
    exact collectErrs_eq_filterMap up f rs es
  · intro hw hv
    exact assocLookup_mapInsert_self hw up hv

/-- The guarded prefix of `loadPayFile` falls through to the body whenever the
duplicate check does not fire. -/
theorem loadPayFile_guard_false (s : PayrollSystem) (f : String)
    (content : Option (List (String × ℚ))) (replace confirmYes : Bool)
    (h : (s.loadedPayFiles.contains (monthOfFilename f) && !replace) = false) :
    loadPayFile s f content replace confirmYes
      = loadPayBody s f (monthOfFilename f) content := by
  cases replace with
  | true => simp [loadPayFile]
  | false =>
    have h0 : s.loadedPayFiles.contains (monthOfFilename f) = false := by
      simpa using h
    exact loadPayFile_not_processed s f content false confirmYes h0

/--
C3 counterexample: on a re-ingestion of an already-processed month with the
replace prompt answered yes, an unreadable pay-file source still mutates the
ledger — the month's records are removed before the read failure is noticed,
so the claimed "state exactly as before, including re-ingestion" fails.
-/
theorem C3_unreadable_counterexample :
    (loadPayFile sAB1 "jan25.txt" none false true).1 = false ∧
    (loadPayFile sAB1 "jan25.txt" none false true).2.2.processedMonths
      ≠ sAB1.processedMonths := by
  decide

/--
C3 (amended): when the pay-file source is unreadable and the call did not
first pass an accepted replace confirmation, ingestion returns `false` with
the single structured unreadable-source error (not an unknown-identifier
error) and the employee maps, loaded set and processed months are unchanged.
-/
theorem C3_unreadable_failure (s : PayrollSystem) (filename : String)
    (replace confirmYes : Bool)
    (hguard : (s.loadedPayFiles.contains (monthOfFilename filename) && !replace)
      = false) :
    loadPayFile s filename none replace confirmYes
      = (false, [(filename, unreadableMsg filename)], { s with errors := [] }) := by
  rw [loadPayFile_guard_false s filename none replace confirmYes hguard]
  rfl

/-- Witness for C3 (amended) at the concrete ledger with a fresh month. -/
theorem C3_unreadable_failure_witness :
    loadPayFile sAB0 "feb25.txt" none false false
      = (false, [("feb25.txt", unreadableMsg "feb25.txt")],
         { sAB0 with errors := [] }) :=
  C3_unreadable_failure sAB0 "feb25.txt" false false (by decide)

/--
C2 counterexample: ingesting a second pay file for the same month with the
`replace = true` parameter does not reproduce the fresh-ledger state — the
duplicate branch (and with it the cleanup) is skipped entirely, leaving the
other employee's old hours and a duplicated processed-month entry.
-/
theorem C2_replace_flag_counterexample :
    (loadPayFile sAB1 "jan25.txt" (some jan25v2) true false).2.2
      ≠ (loadPayFile sAB0 "jan25.txt" (some jan25v2) true false).2.2 := by
  decide

/--
C2 (amended): re-ingesting a month-key with the replace decision answered yes
(the path the program actually takes for a duplicate month) yields ledger
state identical to ingesting the second file alone on a fresh ledger.
-/
theorem C2_confirmed_replace_equiv (regs : List (String × String × ℚ))
    (filename : String) (rs1 rs2 : List (String × ℚ)) :
    (loadPayFile
        ((loadPayFile (loadEmployees initState regs) filename (some rs1)
          false false).2.2)
        filename (some rs2) false true).2.2
      = (loadPayFile (loadEmployees initState regs) filename (some rs2)
          false true).2.2 := by
  have h0 : (loadEmployees initState regs).loadedPayFiles.contains
      (monthOfFilename filename) = false := rfl
  rw [loadPayFile_not_processed _ _ _ _ _ h0, loadPayFile_not_processed _ _ _ _ _ h0]
  set s1 := (loadPayBody (loadEmployees initState regs) filename
      (monthOfFilename filename) (some rs1)).2.2 with hs1
  have hlf : s1.loadedPayFiles = [monthOfFilename filename] := rfl
  have hc : s1.loadedPayFiles.contains (monthOfFilename filename) = true := by
    rw [hlf]
    simp
  rw [loadPayFile_confirmed s1 filename (some rs2) hc]
  have hemp : s1.employees
      = applyRecords (loadEmployees initState regs).employees
          (monthOfFilename filename) rs1 := by
    rw [hs1]
    show (processRecords (loadEmployees initState regs).employees
        (monthOfFilename filename) filename rs1).1 = _
    rw [processRecords_eq]
  have he : eraseMonthAll s1.employees (monthOfFilename filename)
      = (loadEmployees initState regs).employees := by
    rw [hemp, eraseMonthAll_applyRecords]
    exact eraseMonthAll_eq_self _ _
      (fun p hp => by rw [loadEmployees_init_hours regs p hp]; rfl)
  have hpm : s1.processedMonths = [monthOfFilename filename] := rfl
  have herr : s1.errors = [] := rfl
  have hstate : ({ removePayRecordsForMonth s1 (monthOfFilename filename) with
      loadedPayFiles :=
        s1.loadedPayFiles.filter (· ≠ monthOfFilename filename) } : PayrollSystem)
      = loadEmployees initState regs := by
    show PayrollSystem.mk
        (eraseMonthAll s1.employees (monthOfFilename filename))
        (s1.loadedPayFiles.filter (· ≠ monthOfFilename filename))
        (s1.processedMonths.erase (monthOfFilename filename)) s1.errors
      = loadEmployees initState regs
    rw [he, hlf, hpm, herr]
    have hfe : ([monthOfFilename filename].filter (· ≠ monthOfFilename filename))
        = ([] : List String) := by simp
    have her : ([monthOfFilename filename].erase (monthOfFilename filename))
        = ([] : List String) := by simp
    rw [hfe, her]
    rfl
  rw [hstate]

/-! ### Ledger invariant preservation (for C8) -/

/-- A successful lookup exhibits a member of the association list. -/
theorem assocLookup_mem {α : Type} (l : List (String × α)) (k : String) (v : α)
    (h : assocLookup l k = some v) : (k, v) ∈ l := by
  induction l with
  | nil => cases h
  | cons p t ih =>
    rw [assocLookup_cons] at h
    by_cases hp : p.1 = k
    · rw [if_pos hp] at h
      have hv : p.2 = v := Option.some.inj h
      have hpe : p = (k, v) := by
        rw [← hp, ← hv]
      rw [hpe]
      exact List.mem_cons_self _ _
    · rw [if_neg hp] at h
      exact List.mem_cons_of_mem _ (ih h)

/-- The invariant holds for the fresh ledger. -/
theorem ledgerInv_init : LedgerInv initState := by
  refine ⟨?_, ?_, ?_⟩ <;> simp [initState, LedgerInv]

/-- Loading a registry preserves the invariant: every employee it writes has
an empty hours map, and the month bookkeeping is untouched. -/
theorem ledgerInv_loadEmployees (s : PayrollSystem)
    (regs : List (String × String × ℚ)) (h : LedgerInv s) :
    LedgerInv (loadEmployees s regs) := by
  obtain ⟨h1, h2, h3⟩ := h
  refine ⟨?_, h2, h3⟩
  suffices haux : ∀ es : List (String × Employee),
      (∀ p ∈ es, ∀ q ∈ p.2.hoursWorked, q.1 ∈ s.processedMonths) →
      ∀ p ∈ regs.foldl
        (fun es r =>
          let nid := toUpperStr (trim r.1)
          mapInsert es nid ⟨nid, trim r.2.1, r.2.2, []⟩)
        es, ∀ q ∈ p.2.hoursWorked, q.1 ∈ s.processedMonths by
    exact haux s.employees h1
  induction regs with
  | nil =>
    intro es hes
    exact hes
  | cons r rest ih =>
    intro es hes
    simp only [List.foldl_cons]
    refine ih _ ?_
    intro p hp
    rcases mem_mapInsert _ _ _ p hp with h1' | h1'
    · exact hes p h1'
    · rw [h1']
      intro q hq
      cases hq

/-- Removing a month preserves the invariant. -/
theorem ledgerInv_remove (s : PayrollSystem) (m : String) (h : LedgerInv s) :
    LedgerInv (removePayRecordsForMonth s m) := by
  obtain ⟨h1, h2, h3⟩ := h
  refine ⟨?_, h2.erase m, ?_⟩
  · intro p hp q hq
    rcases List.mem_map.mp hp with ⟨p0, hp0, hpe⟩
    rw [← hpe] at hq
    have hq' := (mem_mapErase p0.2.hoursWorked m q).mp hq
    exact (List.mem_erase_of_ne hq'.2).mpr (h1 p0 hp0 q hq'.1)
  · intro m' hm'
    exact h3 m' (List.mem_of_mem_erase hm')

/-- The ingestion loop only ever adds hour entries for the ingested month. -/
theorem applyRecords_hours_mem (up : String) (rs : List (String × ℚ)) :
    ∀ (es : List (String × Employee)) (M : List String),
      (∀ p ∈ es, ∀ q ∈ p.2.hoursWorked, q.1 ∈ M) → up ∈ M →
      ∀ p ∈ applyRecords es up rs, ∀ q ∈ p.2.hoursWorked, q.1 ∈ M := by
  induction rs with
  | nil =>
    intro es M hes _
    exact hes
  | cons r rest ih =>
    intro es M hes hup
    unfold applyRecords
    by_cases hr : assocHas es (toUpperStr (trim r.1))
    · rw [if_pos hr]
      refine ih _ M ?_ hup
      intro p hp q hq
      rcases List.mem_map.mp hp with ⟨p0, hp0, hpe⟩
      rw [← hpe] at hq
      by_cases hpk : p0.1 = toUpperStr (trim r.1)
      · rw [if_pos hpk] at hq
        rcases mem_mapInsert p0.2.hoursWorked up r.2 q hq with hq1 | hq1
        · exact hes p0 hp0 q hq1
        · rw [hq1]
          exact hup
      · rw [if_neg hpk] at hq
        exact hes p0 hp0 q hq
    · rw [if_neg hr]
      exact ih _ M hes hup

/-- The post-guard body of `loadPayFile` preserves the invariant when the
ingested month is not currently marked as loaded. -/
theorem ledgerInv_loadPayBody (s : PayrollSystem) (f up : String)
    (content : Option (List (String × ℚ))) (hinv : LedgerInv s)
    (hup : up ∉ s.loadedPayFiles) :
    LedgerInv (loadPayBody s f up content).2.2 := by
  obtain ⟨h1, h2, h3⟩ := hinv
  cases content with
  | none => exact ⟨h1, h2, h3⟩
  | some rs =>
    have hupp : up ∉ s.processedMonths := fun hmem => hup (h3 up hmem)
    refine ⟨?_, ?_, ?_⟩
    · have hemp : (loadPayBody s f up (some rs)).2.2.employees
          = applyRecords s.employees up rs := by
        show (processRecords s.employees up f rs).1 = _
        rw [processRecords_eq]
      rw [hemp]
      exact applyRecords_hours_mem up rs s.employees (s.processedMonths ++ [up])
        (fun p hp q hq => List.mem_append_left _ (h1 p hp q hq))
        (List.mem_append_right _ (by simp))
    · show (s.processedMonths ++ [up]).Nodup
      rw [List.nodup_append]
      refine ⟨h2, List.nodup_singleton _, ?_⟩
      intro a ha hb
      have hae : a = up := by simpa using hb
      rw [hae] at ha
      exact hupp ha
    · intro m hm
      show m ∈ setInsert s.loadedPayFiles up
      rcases List.mem_append.mp hm with hmm | hmm
      · exact mem_setInsert_of_mem _ _ _ (h3 m hmm)
      · have hme : m = up := by simpa using hmm
        rw [hme]
        exact mem_setInsert_self _ _

/-- A `replace = false` ingestion preserves the invariant, whatever the file
content and the caller's replace decision. -/
theorem ledgerInv_ingest (s : PayrollSystem) (f : String)
    (content : Option (List (String × ℚ))) (confirmYes : Bool)
    (h : LedgerInv s) : LedgerInv (loadPayFile s f content false confirmYes).2.2 := by
  by_cases hc : s.loadedPayFiles.contains (monthOfFilename f) = true
  · cases confirmYes with
    | false =>
      rw [loadPayFile_declined s f content hc]
      exact h
    | true =>
      rw [loadPayFile_confirmed s f content hc]
      apply ledgerInv_loadPayBody
      · obtain ⟨h1, h2, h3⟩ := ledgerInv_remove s (monthOfFilename f) h
        refine ⟨h1, h2, ?_⟩
        intro m hm
        have hm' : m ∈ s.processedMonths := List.mem_of_mem_erase hm
        have hne : m ≠ monthOfFilename f := by
          intro he
          rw [he] at hm
          exact h.2.1.not_mem_erase hm
        exact List.mem_filter.mpr ⟨h.2.2 m hm', by simpa using hne⟩
      · intro hmem
        rcases List.mem_filter.mp hmem with ⟨_, hdec⟩
        simp at hdec
  · have hcf : s.loadedPayFiles.contains (monthOfFilename f) = false := by
      simpa using hc
    rw [loadPayFile_not_processed s f content false confirmYes hcf]
    exact ledgerInv_loadPayBody s f _ content h (by simpa using hcf)

/-- Any single `replace = false` operation preserves the invariant. -/
theorem ledgerInv_applyOp (s : PayrollSystem) (op : Op)
    (hnr : noReplaceFlag op = true) (h : LedgerInv s) :
    LedgerInv (applyOp s op) := by
  cases op with
  | loadEmp regs => exact ledgerInv_loadEmployees s regs h
  | ingest f c r y =>
    have hr : r = false := by simpa [noReplaceFlag] using hnr
    subst hr
    exact ledgerInv_ingest s f c y h
  | removeMonth m => exact ledgerInv_remove s m h

/-- The invariant holds after any `replace = false` operation sequence. -/
theorem ledgerInv_runOps (ops : List Op) :
    ∀ s : PayrollSystem, LedgerInv s →
      (∀ op ∈ ops, noReplaceFlag op = true) → LedgerInv (runOps s ops) := by
  induction ops with
  | nil =>
    intro s hs _
    exact hs
  | cons op rest ih =>
    intro s hs hops
    show LedgerInv (rest.foldl applyOp (applyOp s op))
    exact ih (applyOp s op)
      (ledgerInv_applyOp s op (hops op (by simp)) hs)
      (fun o ho => hops o (by simp [ho]))

/--
C8 (amended): in every ledger state reachable by registry loads, pay-file
ingestions with the default `replace = false`, and month removals, every
month-key recorded in some employee's hours map is in the processed-months
sequence, and that sequence has no duplicates. (Ingestion with
`replace = true` violates the no-duplicates part, see the counterexample.)
-/
theorem C8_processed_months_invariant (ops : List Op)
    (hops : ∀ op ∈ ops, noReplaceFlag op = true) :
    (∀ m, (∃ p ∈ (runOps initState ops).employees,
        assocHas p.2.hoursWorked m = true) →
      m ∈ (runOps initState ops).processedMonths) ∧
    (runOps initState ops).processedMonths.Nodup := by
  have key : LedgerInv (runOps initState ops) :=
    ledgerInv_runOps ops initState ledgerInv_init hops
  refine ⟨?_, key.2.1⟩
  intro m hm
  rcases hm with ⟨p, hp, hhas⟩
  rcases (assocHas_iff_lookup _ _).mp hhas with ⟨v, hv⟩
  exact key.1 p hp (m, v) (assocLookup_mem _ _ _ hv)

/-- Witness for C8 (amended) at a concrete five-operation history. -/
theorem C8_processed_months_invariant_witness :
    (∀ m, (∃ p ∈ (runOps initState opsNoReplace).employees,
        assocHas p.2.hoursWorked m = true) →
      m ∈ (runOps initState opsNoReplace).processedMonths) ∧
    (runOps initState opsNoReplace).processedMonths.Nodup :=
  C8_processed_months_invariant opsNoReplace (by decide)

/--
C8 counterexample: an ingestion carrying `replace = true` for an
already-processed month appends the month-key to `processedMonths` again, so
the processed-months sequence of this reachable state has a duplicate.
-/
theorem C8_duplicate_months_counterexample :
    ¬ (runOps initState
        [Op.loadEmp regsAB,
         Op.ingest "jan25.txt" (some [("E1", 160), ("E2", 100)]) false false,
         Op.ingest "jan25.txt" (some [("E1", 150)]) true false]).processedMonths.Nodup := by
  decide

/-! ### Sorted month listing (C7) -/

/-- Membership in the month listing: exactly the registered employees with an
hours entry for the month. -/
theorem mem_monthEmployees (s : PayrollSystem) (month : String) (e : Employee) :
    e ∈ monthEmployees s month ↔
      ∃ p ∈ s.employees, p.2 = e ∧ assocHas p.2.hoursWorked month = true := by
  unfold monthEmployees
  constructor
  · intro he
    rcases List.mem_map.mp he with ⟨p, hp, hpe⟩
    rcases List.mem_filter.mp hp with ⟨hpl, hphas⟩
    exact ⟨p, hpl, hpe, hphas⟩
  · intro hex
    rcases hex with ⟨p, hpl, hpe, hphas⟩
    exact List.mem_map.mpr ⟨p, List.mem_filter.mpr ⟨hpl, hphas⟩, hpe⟩

/--
C7 counterexample: with the hourly-rate criterion and two employees of equal
rate, the unstable `std::sort` postcondition admits an output whose tied pair
is in descending identifier order, refuting the claimed ascending-identifier
tie-break (and with it the claimed unique, repeatable output).
-/
theorem C7_tie_break_counterexample :
    ¬ (∀ out, SortOutcome sTie "JAN25" 1 out →
        out.Pairwise (fun a b =>
          ¬ sortKey 1 "JAN25" a < sortKey 1 "JAN25" b ∧
          (sortKey 1 "JAN25" a = sortKey 1 "JAN25" b → a.id < b.id))) := by
  intro hclaim
  have h := hclaim tieDescOut (by decide)
  unfold tieDescOut at h
  rcases List.pairwise_cons.mp h with ⟨hrel, _⟩
  have hba := hrel ⟨"E1", "Alice", 10, [("JAN25", 160)]⟩ (by simp)
  have hlt : ("E2" : String) < "E1" := hba.2 (by rfl)
  have hdata : ("E2" : String).toList < ("E1" : String).toList :=
    String.lt_iff_toList_lt.mp hlt
  revert hdata
  decide

/--
C7 (amended): every output the sort postcondition admits contains exactly the
employees with an hours entry for the month, is nonincreasing in the chosen
criterion, and at least one such output exists; the unstable sort leaves the
order of criterion ties (and hence cross-call determinism) unspecified.
-/
theorem C7_sorted_listing (s : PayrollSystem) (month : String) (crit : Nat)
    (out : List Employee) (hout : SortOutcome s month crit out) :
    (∀ e, e ∈ out ↔
      ∃ p ∈ s.employees, p.2 = e ∧ assocHas p.2.hoursWorked month = true) ∧
    out.Pairwise (fun a b => ¬ sortKey crit month a < sortKey crit month b) ∧
    ∃ out', SortOutcome s month crit out' := by
  obtain ⟨hperm, hsorted⟩ := hout
  refine ⟨?_, hsorted, ?_⟩
  · intro e
    rw [hperm.mem_iff]
    exact mem_monthEmployees s month e
  · haveI htot : IsTotal Employee
        (fun a b => ¬ sortKey crit month a < sortKey crit month b) :=
      ⟨fun a b => by
        by_cases hab : sortKey crit month a < sortKey crit month b
        · right
          exact lt_asymm hab
        · left
          exact hab⟩
    haveI htrans : IsTrans Employee
        (fun a b => ¬ sortKey crit month a < sortKey crit month b) :=
      ⟨fun a b c hab hbc => by
        rw [not_lt] at hab hbc ⊢
        exact le_trans hbc hab⟩
    exact ⟨List.insertionSort _ (monthEmployees s month),
      List.perm_insertionSort _ _, List.sorted_insertionSort _ _⟩

/-- Witness for C7 (amended) at the tied two-employee ledger with the
ascending-identifier output. -/
theorem C7_sorted_listing_witness :
    (∀ e, e ∈ tieAscOut ↔
      ∃ p ∈ sTie.employees, p.2 = e ∧ assocHas p.2.hoursWorked "JAN25" = true) ∧
    tieAscOut.Pairwise (fun a b => ¬ sortKey 1 "JAN25" a < sortKey 1 "JAN25" b) ∧
    ∃ out', SortOutcome sTie "JAN25" 1 out' :=
  C7_sorted_listing sTie "JAN25" 1 tieAscOut (by decide)

end Payroll
